import Mathlib

/- Verification of the rrule recurrence-engine slice: the weekly rule
   expansion, the rule-set merge with exclusion, and the RFC-5545
   datetime / weekday parsers. -/

/-- Weekdays, as in `chrono::Weekday`. -/
inductive Weekday
  | Mon | Tue | Wed | Thu | Fri | Sat | Sun
  deriving DecidableEq, Repr

/-- Seconds per day; instants are absolute seconds since the Unix epoch. -/
def secsPerDay : ℤ := 86400

/-- Weekday of an epoch-day number (day 0 = 1970-01-01, a Thursday). -/
def weekdayOfDay (d : ℤ) : Weekday :=
  match ((d + 3) % 7).toNat with
  | 0 => .Mon
  | 1 => .Tue
  | 2 => .Wed
  | 3 => .Thu
  | 4 => .Fri
  | 5 => .Sat
  | _ => .Sun

/-- The epoch-day of the Monday starting the week containing `d`
    (week-start Monday, the default of §3). -/
def mondayOfWeek (d : ℤ) : ℤ := d - (d + 3) % 7

/-- A built rule, restricted to the fields the weekly fragment uses:
    `by_weekday` (plain weekdays), `count`, and the anchoring `dt_start`
    (absolute seconds). -/
structure RRule where
  by_weekday : List Weekday
  count : Option Nat
  dt_start : ℤ
  deriving DecidableEq, Repr

/-- The effective `BYDAY` set: an absent `BYDAY` inherits dtstart's weekday,
    the customary implicit-BY behaviour of §4.3; it is always non-empty. -/
def effByday (r : RRule) : List Weekday :=
  if r.by_weekday = [] then [weekdayOfDay (r.dt_start / secsPerDay)] else r.by_weekday

/-- Modelled from the spec: the candidate-generation and filter stages of the
    single-rule iterator (§4.3 weekly candidates, §4.4 `BYDAY` filter)
    specialised to `FREQ=WEEKLY;INTERVAL=1` with week-start Monday — the
    engine itself is missing from the sources.  The occurrences produced by
    the first `fuel` candidate days: consecutive days from the Monday of
    dtstart's week, filtered by `BYDAY` membership, candidates before dtstart
    dropped (§4.6 step 3), each materialised at dtstart's time-of-day.
    Candidate day `i` yields the instant of day `monday + i`, so growing
    `fuel` only appends later instants. -/
def ruleOccs (r : RRule) (fuel : Nat) : List ℤ :=
  (((List.range fuel).map (fun i : Nat => mondayOfWeek (r.dt_start / secsPerDay) + (i : ℤ))).filter
      (fun d => decide (weekdayOfDay d ∈ effByday r) &&
        decide (r.dt_start / secsPerDay ≤ d))).map
    (fun d => d * secsPerDay + r.dt_start % secsPerDay)

/-- The occurrences contributed by candidate days `f1 ≤ i < f1 + d`: the part
    of `ruleOccs` a larger lookahead appends. -/
def ruleOccsSeg (r : RRule) (f1 d : Nat) : List ℤ :=
  ((((List.range d).map (fun x => f1 + x)).map
        (fun i : Nat => mondayOfWeek (r.dt_start / secsPerDay) + (i : ℤ))).filter
      (fun d => decide (weekdayOfDay d ∈ effByday r) &&
        decide (r.dt_start / secsPerDay ≤ d))).map
    (fun d => d * secsPerDay + r.dt_start % secsPerDay)

/-- Modelled from the spec: the single-rule iterator's emissions within the
    first `fuel` candidate days (§4.6): the filtered occurrences, truncated by
    `COUNT` when one is set (§4.6 step 4).  For a rule with `COUNT = k` the
    list stabilises once the count is reached (`ruleExpand_stable`); a rule
    without `COUNT` never terminates, every further week contributing more
    candidates. -/
def ruleExpand (r : RRule) (fuel : Nat) : List ℤ :=
  match r.count with
  | some k => (ruleOccs r fuel).take k
  | none => ruleOccs r fuel

/-- Membership in a rule's unbounded expansion: windowing the candidate days
    at the instant's own day is exhaustive, because later candidate days
    produce only later instants (`ruleExpand_mem_window`), so this decides
    `∃ fuel, t ∈ ruleExpand r fuel` executably. -/
def inExpansion (r : RRule) (t : ℤ) : Bool :=
  decide (t ∈ ruleExpand r
    ((t / secsPerDay - mondayOfWeek (r.dt_start / secsPerDay) + 1).toNat))

/-- The rule-set, translated from `RRuleSet` in `core/rruleset.rs`:
    four vectors plus the set's `dt_start`. -/
structure RRuleSet where
  rrule : List RRule
  rdate : List ℤ
  exrule : List RRule
  exdate : List ℤ
  dt_start : ℤ
  deriving DecidableEq, Repr

/-- `RRuleSet::default()`: four empty vectors, `dt_start` the Unix epoch. -/
def RRuleSet.default : RRuleSet := ⟨[], [], [], [], 0⟩

/-- The mutator method `RRuleSet::rrule` (the struct field keeps the source
    name, so the method is renamed here): it pushes the given rule onto the
    `rrule` vector and does nothing else. -/
def RRuleSet.pushRrule (s : RRuleSet) (r : RRule) : RRuleSet :=
  { s with rrule := s.rrule ++ [r] }

/-- The mutator method `RRuleSet::exrule`: pushes onto the `exrule` vector. -/
def RRuleSet.pushExrule (s : RRuleSet) (r : RRule) : RRuleSet :=
  { s with exrule := s.exrule ++ [r] }

/-- The mutator method `RRuleSet::rdate`: pushes onto the `rdate` vector. -/
def RRuleSet.pushRdate (s : RRuleSet) (d : ℤ) : RRuleSet :=
  { s with rdate := s.rdate ++ [d] }

/-- The mutator method `RRuleSet::exdate`: pushes onto the `exdate` vector. -/
def RRuleSet.pushExdate (s : RRuleSet) (d : ℤ) : RRuleSet :=
  { s with exdate := s.exdate ++ [d] }

/-- Remove adjacent duplicates of a sorted list: the set iterator's
    deduplicate-on-emit step (spec §4.7 step 4). -/
def dedupSorted : List ℤ → List ℤ
  | [] => []
  | [x] => [x]
  | x :: y :: xs => if x = y then dedupSorted (y :: xs) else x :: dedupSorted (y :: xs)

/-- Modelled from the spec: the output of the set iterator's lazy n-way
    chronological merge over all include sources (§4.7 steps 1-2 and the
    dedup of step 4) — the set iterator is missing from the sources.  On
    sorted sources the merge's output is the ascending arrangement of the
    multiset union with adjacent duplicates removed, which is what this
    computes. -/
def includeList (s : RRuleSet) (fuel : Nat) : List ℤ :=
  dedupSorted
    (List.insertionSort (fun a b : ℤ => a ≤ b)
      (s.rdate ++ (s.rrule.map (fun r => ruleExpand r fuel)).flatten))

/-- Modelled from the spec: the exclusion test of §4.7 step 3 — an instant is
    excluded iff some exclude-rule yields it in its own unbounded expansion
    (the rule's own `COUNT` bounding its candidates, §4.7; the set iterator
    advances each exclude rule past the instant, so no lookahead horizon
    truncates the test) or it appears in the exclude-dates. -/
def isExcluded (s : RRuleSet) (t : ℤ) : Bool :=
  s.exrule.any (fun r => inExpansion r t) || s.exdate.contains t

/-- The error surfaced by `all` when the limit is reached early (spec §6). -/
inductive RRuleError
  | LimitExceeded
  deriving DecidableEq, Repr

/-- The set stream: include-merge minus exclusions (spec §4.7 steps 3-4). -/
def setOccurrences (s : RRuleSet) (fuel : Nat) : List ℤ :=
  (includeList s fuel).filter (fun t => !(isExcluded s t))

/-- The rule's iterator has terminated naturally within the lookahead: its
    `COUNT` is set and already reached.  A rule without `COUNT` never
    terminates naturally (in this weekly fragment its candidate stream is
    infinite), so it is never complete. -/
def ruleComplete (r : RRule) (fuel : Nat) : Bool :=
  match r.count with
  | some k => (ruleExpand r fuel).length == k
  | none => false

/-- Every include rule of the set has terminated naturally within the
    lookahead, so the merge of the include sources is the whole (finite)
    expansion of the set. -/
def setComplete (s : RRuleSet) (fuel : Nat) : Bool :=
  s.rrule.all (fun r => ruleComplete r fuel)

/-- Modelled from the spec: `all(limit)` of the `DateFilter` (§6) — the
    `DateFilter` implementation is missing from the sources.  `fuel` is the
    verification lookahead, not part of the engine's interface: the model
    returns the expanded stream only when it can certify natural termination
    within the lookahead (`setComplete`, every include rule's `COUNT`
    reached, the stream then being fuel-stable) with at most `limit`
    occurrences; otherwise the limit is reached before natural termination —
    in particular always for a count-less include rule, whose stream never
    ends — and it fails with `LimitExceeded`. -/
def setAll (s : RRuleSet) (limit : Nat) (fuel : Nat) : Except RRuleError (List ℤ) :=
  if setComplete s fuel = true ∧ (setOccurrences s fuel).length ≤ limit then
    .ok (setOccurrences s fuel)
  else .error .LimitExceeded

/-- The include rule of `examples/manual_rrule_set.rs`:
    `FREQ=WEEKLY;COUNT=4;BYDAY=TU,WE`, dtstart 2020-01-01T09:00:00Z
    (= 1577869200 s). -/
def exampleRrule : RRule := ⟨[.Tue, .Wed], some 4, 1577869200⟩

/-- The exclude rule of `examples/manual_rrule_set.rs`:
    `FREQ=WEEKLY;COUNT=4;BYDAY=WE`, same dtstart. -/
def exampleExrule : RRule := ⟨[.Wed], some 4, 1577869200⟩

/-- The rule-set built by `examples/manual_rrule_set.rs`: default set, then
    the include rule and the exclude rule pushed by the mutators. -/
def exampleSet : RRuleSet :=
  (RRuleSet.default.pushRrule exampleRrule).pushExrule exampleExrule

/-- Digit value of a character. -/
def digitVal (c : Char) : Nat := c.toNat - 48

/-- Proleptic-Gregorian leap year. -/
def isLeapYear (y : ℤ) : Bool := y % 4 == 0 && (y % 100 != 0 || y % 400 == 0)

/-- Days in month `m` of year `y` (for `m` in `[1,12]`). -/
def daysInMonth (y : ℤ) (m : Nat) : Nat :=
  match m with
  | 2 => if isLeapYear y then 29 else 28
  | 4 => 30
  | 6 => 30
  | 9 => 30
  | 11 => 30
  | _ => 31

/-- Days from 1970-01-01 to the civil date `y-m-d` (standard era-based
    algorithm on the proleptic Gregorian calendar, as used by `chrono`). -/
def daysFromCivil (y : ℤ) (m d : Nat) : ℤ :=
  let y2 : ℤ := if m ≤ 2 then y - 1 else y
  let era : ℤ := (if 0 ≤ y2 then y2 else y2 - 399) / 400
  let yoe : ℤ := y2 - era * 400
  let mp : ℤ := ((m : ℤ) + 9) % 12
  let doy : ℤ := (153 * mp + 2) / 5 + (d : ℤ) - 1
  let doe : ℤ := yoe * 365 + yoe / 4 - yoe / 100 + doy
  era * 146097 + doe - 719468

/-- A parsed time-of-day triple (`regex::ParsedDateStringTime`). -/
structure ParsedTime where
  hour : Nat
  min : Nat
  sec : Nat
  deriving DecidableEq, Repr

/-- A parsed datestring (`regex::ParsedDateString`): civil date, optional
    time-of-day, and the zulu flag. -/
structure ParsedDateString where
  year : ℤ
  month : Nat
  day : Nat
  time : Option ParsedTime
  zulu_timezone_set : Bool
  deriving DecidableEq, Repr

/-- The tail of a datestring after `YYYYMMDD`: empty, the zulu marker, or
    `THHMMSS` optionally followed by the zulu marker; returns the optional
    time-of-day and the zulu flag. -/
def parseTimeTail : List Char → Option (Option ParsedTime × Bool)
  | [] => some (none, false)
  | ['Z'] => some (none, true)
  | 'T' :: h1 :: h2 :: i1 :: i2 :: s1 :: s2 :: rest2 =>
    if [h1, h2, i1, i2, s1, s2].all Char.isDigit then
      let t : ParsedTime :=
        ⟨digitVal h1 * 10 + digitVal h2, digitVal i1 * 10 + digitVal i2,
          digitVal s1 * 10 + digitVal s2⟩
      match rest2 with
      | [] => some (some t, false)
      | ['Z'] => some (some t, true)
      | _ => none
    else none
  | _ => none

/-- Modelled from the spec and the source's doc tests: `regex::parse_datestring`
    (module `parser/regex.rs`, missing from the sources) — a datestring is
    `YYYYMMDD`, optionally followed by `THHMMSS`, optionally followed by the
    zulu marker `Z`, which sets `zulu_timezone_set`. -/
def parse_datestring : List Char → Option ParsedDateString
  | y1 :: y2 :: y3 :: y4 :: m1 :: m2 :: d1 :: d2 :: rest =>
    if [y1, y2, y3, y4, m1, m2, d1, d2].all Char.isDigit then
      match parseTimeTail rest with
      | some (t, zulu) =>
        some ⟨((digitVal y1 * 1000 + digitVal y2 * 100 + digitVal y3 * 10 + digitVal y4 : Nat) : ℤ),
          digitVal m1 * 10 + digitVal m2, digitVal d1 * 10 + digitVal d2, t, zulu⟩
      | none => none
    else none
  | _ => none

/-- `NaiveDate::from_ymd_opt` validity of a civil date. -/
def validYmd (y : ℤ) (m d : Nat) : Bool :=
  decide (1 ≤ m) && decide (m ≤ 12) && decide (1 ≤ d) && decide (d ≤ daysInMonth y m)

/-- `NaiveDate::and_hms_opt` validity of a time-of-day. -/
def validHms (h i s : Nat) : Bool :=
  decide (h < 24) && decide (i < 60) && decide (s < 60)

/-- The parsed wall-clock triple as naive seconds since the epoch (an absent
    time part defaults to midnight, the source's `(0, 0, 0)`). -/
def parsedNaive (p : ParsedDateString) : ℤ :=
  let t := p.time.getD ⟨0, 0, 0⟩
  daysFromCivil p.year p.month p.day * secsPerDay +
    ((t.hour * 3600 + t.min * 60 + t.sec : Nat) : ℤ)

/-- Validity of the whole parsed datestring (`from_ymd_opt` plus
    `and_hms_opt`, both failures surfacing as `InvalidDateTime`). -/
def validParsed (p : ParsedDateString) : Bool :=
  let t := p.time.getD ⟨0, 0, 0⟩
  validYmd p.year p.month p.day && validHms t.hour t.min t.sec

/-- Time-zone names; `chrono_tz::Tz` values are abstracted by their name. -/
abbrev TzName := String

/-- Resolving a wall-clock time in a zone: unique instant, gap, or fold
    (`chrono::offset::LocalResult`). -/
inductive LocalResult
  | none
  | single (t : ℤ)
  | ambiguous (t1 t2 : ℤ)
  deriving DecidableEq, Repr

/-- Modelled from the spec: the opaque time-zone collaborator of §6 — given an
    optional zone (`none` meaning the system's local zone, the source's
    `chrono::Local` branch) and a naive wall-clock time, it returns a unique
    instant, a gap, or a fold; the zone database is external to the core. -/
abbrev Resolver := Option TzName → ℤ → LocalResult

/-- An emitted date-time: the absolute instant plus the display zone. -/
structure DateTime where
  instant : ℤ
  zone : TzName
  deriving DecidableEq, Repr

/-- The parse errors produced by the embedded parser functions (the rfc3339
    renderings carried by the ambiguous error are abstracted to the two
    candidate instants). -/
inductive ParseError
  | InvalidTimezone (value : String)
  | InvalidDateTime (value : String) (field : String)
  | InvalidDateTimeInLocalTimezone (value : String) (field : String)
  | DateTimeInLocalTimezoneIsAmbiguous (value : String) (field : String) (date1 : ℤ) (date2 : ℤ)
  | InvalidWeekday (value : String)
  deriving DecidableEq, Repr

/-- `datestring_to_date` of `parser/datetime.rs` lines 36-132, over the
    modelled regex parse and zone resolver: parse the datestring (failures and
    invalid dates or times yield `InvalidDateTime`); when the zulu flag is set
    take the UTC interpretation of the wall-clock triple, otherwise resolve it
    in the given zone (or the system zone), a gap yielding
    `InvalidDateTimeInLocalTimezone` and a fold
    `DateTimeInLocalTimezoneIsAmbiguous`; the display zone of the result is
    the argument zone, defaulting to UTC. -/
def datestring_to_date (res : Resolver) (dt : String) (tz : Option TzName) (field : String) :
    Except ParseError DateTime :=
  match parse_datestring dt.toList with
  | Option.none => .error (.InvalidDateTime dt field)
  | Option.some p =>
    if validParsed p then
      if p.zulu_timezone_set then
        .ok ⟨parsedNaive p, tz.getD "UTC"⟩
      else
        match res tz (parsedNaive p) with
        | .none => .error (.InvalidDateTimeInLocalTimezone dt field)
        | .single t => .ok ⟨t, tz.getD "UTC"⟩
        | .ambiguous a b => .error (.DateTimeInLocalTimezoneIsAmbiguous dt field a b)
    else .error (.InvalidDateTime dt field)

/-- `parse_timezone` of `parser/datetime.rs` lines 13-15, with
    `chrono_tz::Tz::from_str`'s zone database abstracted as `knownTz`. -/
def parse_timezone (knownTz : String → Bool) (tz : String) : Except ParseError TzName :=
  if knownTz tz then .ok tz else .error (.InvalidTimezone tz)

/-- The datetime part of a DTSTART line runs up to `;`, whitespace, or the end
    of the input (the regex's `[^;\s]+`). -/
def takeDatetimePart (cs : List Char) : List Char :=
  cs.takeWhile (fun c => c != ';' && c != '\n' && c != ' ' && c != '\t' && c != '\r')

/-- The tail of a DTSTART line after the `DTSTART` keyword: either
    `;TZID=<zone>:<datetime>` or `:<datetime>`. -/
def parseAfterDtstartKeyword : List Char → Option (Option (List Char) × List Char)
  | ';' :: 'T' :: 'Z' :: 'I' :: 'D' :: '=' :: rest =>
    (match rest.dropWhile (fun c => c != ':') with
     | ':' :: rest2 =>
       let tzCs := rest.takeWhile (fun c => c != ':')
       let dtCs := takeDatetimePart rest2
       if tzCs == [] || dtCs == [] then none else some (some tzCs, dtCs)
     | _ => none)
  | ':' :: rest =>
    let dtCs := takeDatetimePart rest
    if dtCs == [] then none else some (none, dtCs)
  | _ => none

/-- Modelled from the spec and the source's tests: `regex::parse_start_datetime`
    (module `parser/regex.rs`, missing from the sources) — split a DTSTART
    line into its optional `TZID=` zone name and its datetime part. -/
def parse_start_datetime : List Char → Option (Option (List Char) × List Char)
  | 'D' :: 'T' :: 'S' :: 'T' :: 'A' :: 'R' :: 'T' :: rest => parseAfterDtstartKeyword rest
  | _ => none

/-- `parse_dtstart` of `parser/datetime.rs` lines 135-145: split the DTSTART
    line, resolve the optional `TZID=` zone through `parse_timezone`, and feed
    the datetime part to `datestring_to_date` with field `DTSTART`. -/
def parse_dtstart (res : Resolver) (knownTz : String → Bool) (s : String) :
    Except ParseError DateTime :=
  match parse_start_datetime s.toList with
  | Option.none => .error (.InvalidDateTime s "DTSTART")
  | Option.some (tzCs, dtCs) =>
    match tzCs with
    | Option.none => datestring_to_date res (String.mk dtCs) Option.none "DTSTART"
    | Option.some t =>
      match parse_timezone knownTz (String.mk t) with
      | .error e => .error e
      | .ok tz => datestring_to_date res (String.mk dtCs) (Option.some tz) "DTSTART"

/-- Uppercasing of a token, the source's `to_uppercase()`. -/
def upperChars (cs : List Char) : List Char := cs.map Char.toUpper

/-- `str_to_weekday` of `parser/datetime.rs` lines 148-160: uppercase the
    token and accept exactly the seven two-letter weekday codes. -/
def str_to_weekday (d : String) : Except ParseError Weekday :=
  match upperChars d.toList with
  | ['M', 'O'] => .ok .Mon
  | ['T', 'U'] => .ok .Tue
  | ['W', 'E'] => .ok .Wed
  | ['T', 'H'] => .ok .Thu
  | ['F', 'R'] => .ok .Fri
  | ['S', 'A'] => .ok .Sat
  | ['S', 'U'] => .ok .Sun
  | _ => .error (.InvalidWeekday d)

/-- `NWeekday`: every occurrence of a weekday, or its Nth occurrence. -/
inductive NWeekday
  | Every (wd : Weekday)
  | Nth (n : ℤ) (wd : Weekday)
  deriving DecidableEq, Repr

/-- An unsigned run of decimal digits, at least one. -/
def parseDigits (cs : List Char) : Option Nat :=
  if cs.isEmpty then none
  else if cs.all Char.isDigit then
    some (cs.foldl (fun acc c => acc * 10 + digitVal c) 0)
  else none

/-- A signed decimal integer consuming all of the input: optional `+`/`-`
    sign, then at least one digit (Rust's `str::parse` for integers). -/
def parseSignedInt (cs : List Char) : Option ℤ :=
  match cs with
  | '-' :: rest => (parseDigits rest).map (fun n => -(n : ℤ))
  | '+' :: rest => (parseDigits rest).map (fun n => (n : ℤ))
  | _ => (parseDigits cs).map (fun n => (n : ℤ))

/-- Modelled from the spec and the source's tests: `NWeekday::from_str`
    (module `core`, missing from the sources) — a token is either a bare
    weekday code (`Every`) or a signed ordinal immediately followed by a
    weekday code (`Nth`), such as `-12TU` or `3TU`. -/
def nweekday_from_str (cs : List Char) : Except ParseError NWeekday :=
  if cs.length ≤ 2 then
    match str_to_weekday (String.mk cs) with
    | .ok wd => .ok (.Every wd)
    | .error e => .error e
  else
    match parseSignedInt (cs.take (cs.length - 2)),
        str_to_weekday (String.mk (cs.drop (cs.length - 2))) with
    | some n, .ok wd => .ok (.Nth n wd)
    | _, _ => .error (.InvalidWeekday (String.mk cs))

/-- Splitting on a separator character, Rust's `str::split(',')`
    (the empty input yields one empty token). -/
def splitOnChar (sep : Char) : List Char → List (List Char)
  | [] => [[]]
  | c :: cs =>
    if c == sep then [] :: splitOnChar sep cs
    else
      match splitOnChar sep cs with
      | [] => [[c]]
      | t :: ts => (c :: t) :: ts

/-- The accumulation loop of `parse_weekdays`: parse each token in order, the
    first failure aborting the whole parse. -/
def parse_weekdays_loop : List (List Char) → Except ParseError (List NWeekday)
  | [] => .ok []
  | d :: rest =>
    match nweekday_from_str d with
    | .error e => .error e
    | .ok w =>
      match parse_weekdays_loop rest with
      | .error e => .error e
      | .ok ws => .ok (w :: ws)

/-- `parse_weekdays` of `parser/datetime.rs` lines 166-174: split the value on
    commas and parse every token as an `NWeekday`, collecting them in order. -/
def parse_weekdays (val : String) : Except ParseError (List NWeekday) :=
  parse_weekdays_loop (splitOnChar ',' val.toList)

/-- The datestring carries the zulu marker: its last character is `Z`. -/
def zuluSuffix (s : String) : Bool := s.toList.getLast? == some 'Z'

deriving instance DecidableEq for Except

/-- The two-letter code of each weekday. -/
def weekdayCode : Weekday → List Char
  | .Mon => ['M', 'O']
  | .Tue => ['T', 'U']
  | .Wed => ['W', 'E']
  | .Thu => ['T', 'H']
  | .Fri => ['F', 'R']
  | .Sat => ['S', 'A']
  | .Sun => ['S', 'U']

/-- One call to a rule-set mutator method. -/
inductive SetOp
  | addRrule (r : RRule)
  | addExrule (r : RRule)
  | addRdate (d : ℤ)
  | addExdate (d : ℤ)
  deriving DecidableEq, Repr

/-- Apply one mutator call. -/
def applyOp (s : RRuleSet) : SetOp → RRuleSet
  | .addRrule r => s.pushRrule r
  | .addExrule r => s.pushExrule r
  | .addRdate d => s.pushRdate d
  | .addExdate d => s.pushExdate d

/-- Apply a sequence of mutator calls in order. -/
def applyOps (s : RRuleSet) : List SetOp → RRuleSet
  | [] => s
  | op :: ops => applyOps (applyOp s op) ops

/-- The rule pushed by a mutator call, when it pushes one. -/
def opRule : SetOp → Option RRule
  | .addRrule r => some r
  | .addExrule r => some r
  | .addRdate _ => none
  | .addExdate _ => none

theorem mem_dedupSorted : ∀ (l : List ℤ) (x : ℤ), x ∈ dedupSorted l ↔ x ∈ l
  | [], x => by simp [dedupSorted]
  | [y], x => by simp [dedupSorted]
  | y :: z :: l, x => by
    by_cases h : y = z
    · subst h
      have e : dedupSorted (y :: y :: l) = dedupSorted (y :: l) := by
        simp [dedupSorted]
      rw [e, mem_dedupSorted (y :: l) x]
      simp
    · have e : dedupSorted (y :: z :: l) = y :: dedupSorted (z :: l) := by
        simp [dedupSorted, h]
      rw [e, List.mem_cons, mem_dedupSorted (z :: l) x]
      simp

theorem dedupSorted_sorted : ∀ l : List ℤ, l.Sorted (· ≤ ·) → (dedupSorted l).Sorted (· < ·)
  | [], _ => by simp [dedupSorted]
  | [x], _ => by simp [dedupSorted]
  | x :: y :: l, h => by
    rw [List.sorted_cons] at h
    obtain ⟨hx, hyl⟩ := h
    by_cases hxy : x = y
    · have : dedupSorted (x :: y :: l) = dedupSorted (y :: l) := by
        simp [dedupSorted, hxy]
      rw [this]
      exact dedupSorted_sorted (y :: l) hyl
    · have hlt : x < y := lt_of_le_of_ne (hx y (List.mem_cons_self y l)) hxy
      have ih := dedupSorted_sorted (y :: l) hyl
      have hyb : ∀ b ∈ l, y ≤ b := (List.sorted_cons.mp hyl).1
      have hstep : dedupSorted (x :: y :: l) = x :: dedupSorted (y :: l) := by
        simp [dedupSorted, hxy]
      rw [hstep, List.sorted_cons]
      refine ⟨?_, ih⟩
      intro b hb
      rcases List.mem_cons.mp ((mem_dedupSorted (y :: l) b).mp hb) with rfl | hbl
      · exact hlt
      · exact lt_of_lt_of_le hlt (hyb b hbl)

theorem includeList_sorted (s : RRuleSet) (fuel : Nat) :
    (includeList s fuel).Sorted (· < ·) :=
  dedupSorted_sorted _ (List.sorted_insertionSort _ _)

theorem setOccurrences_sorted (s : RRuleSet) (fuel : Nat) :
    (setOccurrences s fuel).Sorted (· < ·) :=
  List.Sorted.filter _ (includeList_sorted s fuel)

theorem mem_setOccurrences (s : RRuleSet) (fuel : Nat) (t : ℤ)
    (h : t ∈ setOccurrences s fuel) : isExcluded s t = false := by
  have h2 := (List.mem_filter.mp h).2
  simpa using h2

theorem isExcluded_false_iff (s : RRuleSet) (t : ℤ) :
    isExcluded s t = false ↔
      (∀ r ∈ s.exrule, inExpansion r t = false) ∧ t ∉ s.exdate := by
  simp [isExcluded]

theorem setAll_ok (s : RRuleSet) (limit fuel : Nat) (out : List ℤ)
    (h : setAll s limit fuel = .ok out) :
    out = setOccurrences s fuel ∧ out.length ≤ limit ∧ setComplete s fuel = true := by
  unfold setAll at h
  split at h
  · rename_i hcond
    injection h with h
    subst h
    exact ⟨rfl, hcond.2, hcond.1⟩
  · exact Except.noConfusion h

theorem occ_ediv (dd : ℤ) (x : ℤ) :
    (dd * secsPerDay + x % secsPerDay) / secsPerDay = dd := by
  have h1 : (0:ℤ) ≤ x % secsPerDay := Int.emod_nonneg x (by decide)
  have h2 : x % secsPerDay < secsPerDay := Int.emod_lt_of_pos x (by decide)
  rw [add_comm, Int.add_mul_ediv_right _ _ (by decide : secsPerDay ≠ 0)]
  rw [Int.ediv_eq_zero_of_lt h1 h2, zero_add]

theorem mem_ruleOccs_iff (r : RRule) (fuel : Nat) (t : ℤ) :
    t ∈ ruleOccs r fuel ↔
      ∃ i : Nat, i < fuel ∧
        t = (mondayOfWeek (r.dt_start / secsPerDay) + i) * secsPerDay +
            r.dt_start % secsPerDay ∧
        weekdayOfDay (mondayOfWeek (r.dt_start / secsPerDay) + i) ∈ effByday r ∧
        r.dt_start / secsPerDay ≤ mondayOfWeek (r.dt_start / secsPerDay) + i := by
  unfold ruleOccs
  constructor
  · intro h
    obtain ⟨dd, hdd, rfl⟩ := List.mem_map.mp h
    obtain ⟨hdd2, hpred⟩ := List.mem_filter.mp hdd
    obtain ⟨i, hi, rfl⟩ := List.mem_map.mp hdd2
    rw [List.mem_range] at hi
    rw [Bool.and_eq_true, decide_eq_true_eq, decide_eq_true_eq] at hpred
    exact ⟨i, hi, rfl, hpred.1, hpred.2⟩
  · intro h
    obtain ⟨i, hi, rfl, hwd, hge⟩ := h
    apply List.mem_map.mpr
    refine ⟨mondayOfWeek (r.dt_start / secsPerDay) + i, ?_, rfl⟩
    apply List.mem_filter.mpr
    refine ⟨List.mem_map.mpr ⟨i, List.mem_range.mpr hi, rfl⟩, ?_⟩
    rw [Bool.and_eq_true, decide_eq_true_eq, decide_eq_true_eq]
    exact ⟨hwd, hge⟩

theorem ruleOccs_add (r : RRule) (f1 d : Nat) :
    ruleOccs r (f1 + d) = ruleOccs r f1 ++ ruleOccsSeg r f1 d := by
  unfold ruleOccs ruleOccsSeg
  rw [List.range_add, List.map_append, List.filter_append, List.map_append]

theorem ruleOccsSeg_day (r : RRule) (f1 d : Nat) (e : ℤ)
    (he : e ∈ ruleOccsSeg r f1 d) :
    mondayOfWeek (r.dt_start / secsPerDay) + f1 ≤ e / secsPerDay := by
  unfold ruleOccsSeg at he
  obtain ⟨dd, hdd, rfl⟩ := List.mem_map.mp he
  obtain ⟨hdd2, -⟩ := List.mem_filter.mp hdd
  obtain ⟨j, hj, rfl⟩ := List.mem_map.mp hdd2
  obtain ⟨i, -, rfl⟩ := List.mem_map.mp hj
  rw [occ_ediv]
  push_cast
  omega

theorem ruleExpand_mem_window (r : RRule) (fuel : Nat) (t : ℤ)
    (h : t ∈ ruleExpand r fuel) :
    t ∈ ruleExpand r
      ((t / secsPerDay - mondayOfWeek (r.dt_start / secsPerDay) + 1).toNat) := by
  cases hk : r.count with
  | none =>
    simp only [ruleExpand, hk] at h ⊢
    obtain ⟨i, hi, heq, hwd, hge⟩ := (mem_ruleOccs_iff r fuel t).mp h
    have hwin : (t / secsPerDay - mondayOfWeek (r.dt_start / secsPerDay) + 1).toNat
        = i + 1 := by
      rw [heq, occ_ediv]
      omega
    rw [hwin]
    exact (mem_ruleOccs_iff r (i + 1) t).mpr ⟨i, Nat.lt_succ_self i, heq, hwd, hge⟩
  | some k =>
    simp only [ruleExpand, hk] at h ⊢
    have hocc : t ∈ ruleOccs r fuel := List.mem_of_mem_take h
    obtain ⟨i, hi, heq, hwd, hge⟩ := (mem_ruleOccs_iff r fuel t).mp hocc
    have hwin : (t / secsPerDay - mondayOfWeek (r.dt_start / secsPerDay) + 1).toNat
        = i + 1 := by
      rw [heq, occ_ediv]
      omega
    rw [hwin]
    obtain ⟨d, hd⟩ := Nat.exists_eq_add_of_le (show i + 1 ≤ fuel from hi)
    rw [hd, ruleOccs_add, List.take_append_eq_append_take] at h
    rcases List.mem_append.mp h with h1 | h2
    · exact h1
    · exfalso
      have h3 : t ∈ ruleOccsSeg r (i + 1) d := List.mem_of_mem_take h2
      have h4 := ruleOccsSeg_day r (i + 1) d t h3
      rw [heq, occ_ediv] at h4
      push_cast at h4
      omega

theorem ruleExpand_stable (r : RRule) (k fuel fuel' : Nat) (hk : r.count = some k)
    (hlen : (ruleExpand r fuel).length = k) (h : fuel ≤ fuel') :
    ruleExpand r fuel' = ruleExpand r fuel := by
  obtain ⟨d, rfl⟩ := Nat.exists_eq_add_of_le h
  simp only [ruleExpand, hk] at hlen ⊢
  rw [ruleOccs_add, List.take_append_eq_append_take]
  rw [List.length_take] at hlen
  rw [Nat.sub_eq_zero_of_le (by omega : k ≤ (ruleOccs r fuel).length)]
  simp

theorem setOccurrences_stable (s : RRuleSet) (fuel fuel' : Nat)
    (hc : setComplete s fuel = true) (h : fuel ≤ fuel') :
    setOccurrences s fuel' = setOccurrences s fuel := by
  have hrules : ∀ r ∈ s.rrule, ruleExpand r fuel' = ruleExpand r fuel := by
    intro r hr
    have hcr := List.all_eq_true.mp hc r hr
    cases hk : r.count with
    | none => simp [ruleComplete, hk] at hcr
    | some k =>
      have hlen : (ruleExpand r fuel).length = k := by
        simpa [ruleComplete, hk] using hcr
      exact ruleExpand_stable r k fuel fuel' hk hlen h
  unfold setOccurrences includeList
  rw [List.map_congr_left hrules]

theorem setComplete_stable (s : RRuleSet) (fuel fuel' : Nat)
    (hc : setComplete s fuel = true) (h : fuel ≤ fuel') :
    setComplete s fuel' = true := by
  rw [setComplete, List.all_eq_true]
  intro r hr
  have hcr := List.all_eq_true.mp hc r hr
  cases hk : r.count with
  | none => simp [ruleComplete, hk] at hcr
  | some k =>
    have hlen : (ruleExpand r fuel).length = k := by
      simpa [ruleComplete, hk] using hcr
    simp [ruleComplete, hk, ruleExpand_stable r k fuel fuel' hk hlen h, hlen]

theorem setAll_stable (s : RRuleSet) (limit fuel fuel' : Nat) (out : List ℤ)
    (hok : setAll s limit fuel = .ok out) (h : fuel ≤ fuel') :
    setAll s limit fuel' = .ok out := by
  obtain ⟨rfl, hlen, hcomp⟩ := setAll_ok s limit fuel out hok
  unfold setAll
  rw [setOccurrences_stable s fuel fuel' hcomp h,
    if_pos ⟨setComplete_stable s fuel fuel' hcomp h, hlen⟩]

theorem parseTimeTail_notZ (rest : List Char) (t : Option ParsedTime)
    (h : parseTimeTail rest = some (t, false)) : rest.getLast? ≠ some 'Z' := by
  unfold parseTimeTail at h
  split at h
  · simp
  · simp at h
  · rename_i h1 h2 i1 i2 s1 s2 rest2
    split at h
    · rename_i hd
      split at h
      · intro hc
        simp only [List.getLast?_cons_cons, List.getLast?_singleton] at hc
        injection hc with hc
        rw [hc] at hd
        simp [List.all_cons] at hd
      · simp at h
      · exact absurd h (by simp)
    · exact absurd h (by simp)
  · exact absurd h (by simp)

theorem parse_datestring_zulu (cs : List Char) (p : ParsedDateString)
    (hp : parse_datestring cs = some p) (hz : cs.getLast? = some 'Z') :
    p.zulu_timezone_set = true := by
  unfold parse_datestring at hp
  split at hp
  · rename_i y1 y2 y3 y4 m1 m2 d1 d2 rest
    split at hp
    · rename_i hd
      split at hp
      · rename_i t zulu htail
        injection hp with hp
        subst hp
        by_contra hzu
        have hzf : zulu = false := by
          cases zulu
          · rfl
          · exact absurd rfl hzu
        subst hzf
        cases rest with
        | nil =>
          simp only [List.getLast?_cons_cons, List.getLast?_singleton] at hz
          injection hz with hz
          rw [hz] at hd
          simp [List.all_cons] at hd
        | cons r rs =>
          refine parseTimeTail_notZ (r :: rs) t htail ?_
          simpa only [List.getLast?_cons_cons] using hz
      · exact absurd hp (by simp)
    · exact absurd hp (by simp)
  · exact absurd hp (by simp)

theorem parse_weekdays_loop_isOk : ∀ toks : List (List Char),
    (parse_weekdays_loop toks).isOk = true ↔
      ∀ tok ∈ toks, (nweekday_from_str tok).isOk = true := by
  intro toks
  induction toks with
  | nil => simp [parse_weekdays_loop, Except.isOk, Except.toBool]
  | cons d rest ih =>
    simp only [parse_weekdays_loop]
    cases hd : nweekday_from_str d with
    | error e =>
      simp only [List.mem_cons, Except.isOk, Except.toBool]
      constructor
      · intro h
        exact absurd h (by simp)
      · intro h
        have := h d (Or.inl rfl)
        rw [hd] at this
        exact absurd this (by simp [Except.isOk, Except.toBool])
    | ok w =>
      cases hr : parse_weekdays_loop rest with
      | error e =>
        rw [hr] at ih
        simp only [List.mem_cons, Except.isOk, Except.toBool] at ih ⊢
        constructor
        · intro h
          exact absurd h (by simp)
        · intro h
          exact absurd (ih.mpr (fun tok htok => h tok (Or.inr htok))) (by simp)
      | ok ws =>
        rw [hr] at ih
        simp only [List.mem_cons, Except.isOk, Except.toBool] at ih ⊢
        constructor
        · intro _ tok htok
          rcases htok with rfl | htok
          · rw [hd]
          · exact ih.mp trivial tok htok
        · intro _
          trivial

theorem parse_weekdays_loop_ok : ∀ (toks : List (List Char)) (ds : List NWeekday),
    parse_weekdays_loop toks = .ok ds →
      ds.length = toks.length ∧
        ∀ i (hi : i < ds.length) (hj : i < toks.length),
          nweekday_from_str (toks.get ⟨i, hj⟩) = .ok (ds.get ⟨i, hi⟩) := by
  intro toks
  induction toks with
  | nil =>
    intro ds h
    simp only [parse_weekdays_loop] at h
    injection h with h
    subst h
    exact ⟨rfl, fun i hi hj => absurd hj (by simp)⟩
  | cons d rest ih =>
    intro ds h
    simp only [parse_weekdays_loop] at h
    cases hd : nweekday_from_str d with
    | error e => rw [hd] at h; exact absurd h (by simp)
    | ok w =>
      rw [hd] at h
      cases hr : parse_weekdays_loop rest with
      | error e => rw [hr] at h; exact absurd h (by simp)
      | ok ws =>
        rw [hr] at h
        injection h with h
        subst h
        obtain ⟨hlen, hidx⟩ := ih ws hr
        refine ⟨by simp [hlen], ?_⟩
        intro i hi hj
        match i with
        | 0 => simpa using hd
        | Nat.succ j =>
          have hj' : j < rest.length := by simpa using hj
          have hi' : j < ws.length := by simpa using hi
          simpa using hidx j hi' hj'

theorem str_to_weekday_iff (s : String) (w : Weekday) :
    str_to_weekday s = .ok w ↔ upperChars s.toList = weekdayCode w := by
  constructor
  · intro h
    unfold str_to_weekday at h
    split at h <;>
      first
        | (injection h with h; subst h; simp_all [weekdayCode])
        | exact absurd h (by simp)
  · intro h
    unfold str_to_weekday
    rw [h]
    cases w <;> rfl

theorem applyOp_dt_start (s : RRuleSet) (op : SetOp) : (applyOp s op).dt_start = s.dt_start := by
  cases op <;> rfl

theorem applyOps_dt_start : ∀ (ops : List SetOp) (s : RRuleSet),
    (applyOps s ops).dt_start = s.dt_start
  | [], _ => rfl
  | op :: ops, s => by
    rw [applyOps, applyOps_dt_start ops (applyOp s op), applyOp_dt_start]

theorem applyOps_rules_dtstart : ∀ (ops : List SetOp) (s : RRuleSet),
    (∀ r ∈ s.rrule, r.dt_start = s.dt_start) →
    (∀ r ∈ s.exrule, r.dt_start = s.dt_start) →
    (∀ op ∈ ops, ∀ r, opRule op = some r → r.dt_start = s.dt_start) →
    (∀ r ∈ (applyOps s ops).rrule, r.dt_start = (applyOps s ops).dt_start) ∧
      (∀ r ∈ (applyOps s ops).exrule, r.dt_start = (applyOps s ops).dt_start) := by
  intro ops
  induction ops with
  | nil =>
    intro s h1 h2 _
    exact ⟨h1, h2⟩
  | cons op ops ih =>
    intro s h1 h2 hop
    simp only [applyOps]
    have hds := applyOp_dt_start s op
    refine ih (applyOp s op) ?_ ?_ ?_
    · intro r hr
      rw [hds]
      cases op with
      | addRrule r0 =>
        rcases (show r ∈ s.rrule ∨ r = r0 by
            simpa [applyOp, RRuleSet.pushRrule] using hr) with h | h
        · exact h1 r h
        · subst h
          exact hop _ (List.mem_cons_self _ _) r rfl
      | addExrule r0 => exact h1 r (by simpa [applyOp, RRuleSet.pushExrule] using hr)
      | addRdate d => exact h1 r (by simpa [applyOp, RRuleSet.pushRdate] using hr)
      | addExdate d => exact h1 r (by simpa [applyOp, RRuleSet.pushExdate] using hr)
    · intro r hr
      rw [hds]
      cases op with
      | addRrule r0 => exact h2 r (by simpa [applyOp, RRuleSet.pushRrule] using hr)
      | addExrule r0 =>
        rcases (show r ∈ s.exrule ∨ r = r0 by
            simpa [applyOp, RRuleSet.pushExrule] using hr) with h | h
        · exact h2 r h
        · subst h
          exact hop _ (List.mem_cons_self _ _) r rfl
      | addRdate d => exact h2 r (by simpa [applyOp, RRuleSet.pushRdate] using hr)
      | addExdate d => exact h2 r (by simpa [applyOp, RRuleSet.pushExdate] using hr)
    · intro op2 hop2 r hr
      rw [hds]
      exact hop op2 (List.mem_cons_of_mem _ hop2) r hr

set_option maxRecDepth 4000 in
/-- C1: for the rule-set of `examples/manual_rrule_set.rs` — dtstart
2020-01-01T09:00:00Z, include `FREQ=WEEKLY;COUNT=4;BYDAY=TU,WE`, exclude
`FREQ=WEEKLY;COUNT=4;BYDAY=WE` — the full expansion under any limit of at
least 2 is exactly 2020-01-07T09:00:00Z (= 1578387600) followed by
2020-01-14T09:00:00Z (= 1578992400), both Tuesdays. -/
theorem c1_example_expansion (limit : Nat) (h : 2 ≤ limit) :
    setAll exampleSet limit 40 = .ok [1578387600, 1578992400] ∧
      weekdayOfDay (1578387600 / secsPerDay) = .Tue ∧
      weekdayOfDay (1578992400 / secsPerDay) = .Tue := by
  have hocc : setOccurrences exampleSet 40 = [1578387600, 1578992400] := by decide
  have hcomp : setComplete exampleSet 40 = true := by decide
  refine ⟨?_, by decide, by decide⟩
  unfold setAll
  rw [hocc]
  rw [if_pos ⟨hcomp, by simp only [List.length_cons, List.length_nil]; omega⟩]

/-- Witness for C1 at the example's own limit 100. -/
theorem c1_example_expansion_witness :
    setAll exampleSet 100 40 = .ok [1578387600, 1578992400] ∧
      weekdayOfDay (1578387600 / secsPerDay) = .Tue ∧
      weekdayOfDay (1578992400 / secsPerDay) = .Tue :=
  c1_example_expansion 100 (by decide)

/-- C3 as stated is false on the code: the mutator methods do not enforce
dtstart equality — after the example's own mutator calls the set's
`dt_start` is still the Unix epoch while the contained include rule's
dtstart is 2020-01-01T09:00:00Z. -/
theorem c3_counterexample :
    ¬ (∀ r ∈ ((RRuleSet.default.pushRrule exampleRrule).pushExrule exampleExrule).rrule,
        r.dt_start =
          ((RRuleSet.default.pushRrule exampleRrule).pushExrule exampleExrule).dt_start) := by
  decide

/-- C3 amended: the mutator methods only append the given rule, leaving the
set's `dt_start` untouched and never checking or rewriting the rule's own
dtstart, so dtstart equality is an input requirement, not an enforced
invariant: it holds after any sequence of mutator calls exactly when it held
initially and every pushed rule already carries the set's `dt_start`. -/
theorem c3_mutators_preserve_dtstart (s : RRuleSet) (ops : List SetOp)
    (h1 : ∀ r ∈ s.rrule, r.dt_start = s.dt_start)
    (h2 : ∀ r ∈ s.exrule, r.dt_start = s.dt_start)
    (hop : ∀ op ∈ ops, ∀ r, opRule op = some r → r.dt_start = s.dt_start) :
    (applyOps s ops).dt_start = s.dt_start ∧
      (∀ r ∈ (applyOps s ops).rrule, r.dt_start = (applyOps s ops).dt_start) ∧
      (∀ r ∈ (applyOps s ops).exrule, r.dt_start = (applyOps s ops).dt_start) := by
  obtain ⟨ha, hb⟩ := applyOps_rules_dtstart ops s h1 h2 hop
  exact ⟨applyOps_dt_start ops s, ha, hb⟩

/-- Witness for the amended C3: a set anchored at the example's dtstart with
both example rules pushed keeps the invariant. -/
theorem c3_mutators_preserve_dtstart_witness :
    (applyOps ⟨[], [], [], [], 1577869200⟩
        [SetOp.addRrule exampleRrule, SetOp.addExrule exampleExrule]).dt_start =
        (1577869200 : ℤ) ∧
      (∀ r ∈ (applyOps ⟨[], [], [], [], 1577869200⟩
          [SetOp.addRrule exampleRrule, SetOp.addExrule exampleExrule]).rrule,
        r.dt_start = (applyOps ⟨[], [], [], [], 1577869200⟩
          [SetOp.addRrule exampleRrule, SetOp.addExrule exampleExrule]).dt_start) ∧
      (∀ r ∈ (applyOps ⟨[], [], [], [], 1577869200⟩
          [SetOp.addRrule exampleRrule, SetOp.addExrule exampleExrule]).exrule,
        r.dt_start = (applyOps ⟨[], [], [], [], 1577869200⟩
          [SetOp.addRrule exampleRrule, SetOp.addExrule exampleExrule]).dt_start) :=
  c3_mutators_preserve_dtstart ⟨[], [], [], [], 1577869200⟩
    [SetOp.addRrule exampleRrule, SetOp.addExrule exampleExrule]
    (by decide) (by decide) (by decide)

/-- C4: no instant in a successful `all` belongs to any exclude-rule's
unbounded expansion — at no lookahead horizon whatsoever does the exclude
rule produce it — or to the exclude-dates, however many include sources
produced it. -/
theorem c4_exclusion_soundness (s : RRuleSet) (limit fuel : Nat) (out : List ℤ) (t : ℤ)
    (h : setAll s limit fuel = .ok out) (ht : t ∈ out) :
    (∀ r ∈ s.exrule, ∀ exfuel : Nat, t ∉ ruleExpand r exfuel) ∧ t ∉ s.exdate := by
  obtain ⟨rfl, -, -⟩ := setAll_ok s limit fuel out h
  obtain ⟨hrules, hdates⟩ :=
    (isExcluded_false_iff s t).mp (mem_setOccurrences s fuel t ht)
  refine ⟨?_, hdates⟩
  intro r hr exfuel hmem
  have hin : inExpansion r t = true := by
    unfold inExpansion
    exact decide_eq_true (ruleExpand_mem_window r exfuel t hmem)
  rw [hrules r hr] at hin
  exact Bool.false_ne_true hin

set_option maxRecDepth 4000 in
/-- Witness for C4 at the example set and its first emitted instant. -/
theorem c4_exclusion_soundness_witness :
    (∀ r ∈ exampleSet.exrule, ∀ exfuel : Nat, (1578387600 : ℤ) ∉ ruleExpand r exfuel) ∧
      (1578387600 : ℤ) ∉ exampleSet.exdate :=
  c4_exclusion_soundness exampleSet 100 40 [1578387600, 1578992400] 1578387600
    (by decide) (by decide)

/-- C5: every sequence returned by a successful `all` is strictly increasing
in absolute instant. -/
theorem c5_all_strictly_increasing (s : RRuleSet) (limit fuel : Nat) (out : List ℤ)
    (h : setAll s limit fuel = .ok out) : out.Sorted (· < ·) := by
  obtain ⟨rfl, -, -⟩ := setAll_ok s limit fuel out h
  exact setOccurrences_sorted s fuel

set_option maxRecDepth 4000 in
/-- Witness for C5 at the example set. -/
theorem c5_all_strictly_increasing_witness :
    ([1578387600, 1578992400] : List ℤ).Sorted (· < ·) :=
  c5_all_strictly_increasing exampleSet 100 40 [1578387600, 1578992400] (by decide)

/-- C6: `all(limit)` returns an ordered vector of at most `limit` instants,
and a successful result means the rule-set genuinely ended within the limit:
the result is stable under every larger lookahead, and an include rule
without `COUNT` — whose stream never terminates naturally — makes every
`all` fail; when natural termination is certified, the failure is
`LimitExceeded` exactly when the limit is below the expansion's length. -/
theorem c6_all_limit_behaviour (s : RRuleSet) (limit fuel : Nat) :
    (∀ out, setAll s limit fuel = .ok out →
        out.length ≤ limit ∧ out.Sorted (· < ·) ∧ out = setOccurrences s fuel ∧
          ∀ fuel', fuel ≤ fuel' → setAll s limit fuel' = .ok out) ∧
      ((∃ r ∈ s.rrule, r.count = none) → ∀ out, setAll s limit fuel ≠ .ok out) ∧
      (setComplete s fuel = true →
        (setAll s limit fuel = .error .LimitExceeded ↔
          limit < (setOccurrences s fuel).length)) := by
  refine ⟨?_, ?_, ?_⟩
  · intro out h
    obtain ⟨heq, hl, -⟩ := setAll_ok s limit fuel out h
    exact ⟨hl, heq ▸ setOccurrences_sorted s fuel, heq,
      fun fuel' hf => setAll_stable s limit fuel fuel' out h hf⟩
  · rintro ⟨r, hr, hcount⟩ out h
    have hcomp := (setAll_ok s limit fuel out h).2.2
    have hcr := List.all_eq_true.mp hcomp r hr
    simp [ruleComplete, hcount] at hcr
  · intro hcomp
    constructor
    · intro h
      by_contra hc
      unfold setAll at h
      rw [if_pos ⟨hcomp, Nat.le_of_not_lt hc⟩] at h
      exact Except.noConfusion h
    · intro h
      unfold setAll
      rw [if_neg (fun hcond => absurd hcond.2 (Nat.not_le_of_lt h))]

set_option maxRecDepth 4000 in
/-- Witness for C6 at the example set. -/
theorem c6_all_limit_behaviour_witness :
    ([1578387600, 1578992400] : List ℤ).length ≤ 100 :=
  ((c6_all_limit_behaviour exampleSet 100 40).1 [1578387600, 1578992400] (by decide)).1

set_option maxRecDepth 4000 in
/-- C7: a rule with `count = k` yields at most `k` instants; the counter
counts the rule's own emissions before set-level exclusion — the example's
include rule with COUNT=4 emits 4 candidates while the merged set retains
only 2 instants. -/
theorem c7_count_honoured :
    (∀ (r : RRule) (fuel k : Nat), r.count = some k → (ruleExpand r fuel).length ≤ k) ∧
      (ruleExpand exampleRrule 40).length = 4 ∧
      (setOccurrences exampleSet 40).length = 2 := by
  refine ⟨?_, by decide, by decide⟩
  intro r fuel k hk
  simp only [ruleExpand, hk]
  simp [List.length_take]

/-- Witness for C7 at the example's include rule. -/
theorem c7_count_honoured_witness : (ruleExpand exampleRrule 40).length ≤ 4 :=
  c7_count_honoured.1 exampleRrule 40 4 rfl

/-- C8: a rule-set whose four vectors are all empty expands to the empty
stream — `all` returns the empty vector and the set's `dt_start` alone is
never emitted. -/
theorem c8_empty_set_yields_nothing (s : RRuleSet) (limit fuel : Nat)
    (h1 : s.rrule = []) (h2 : s.rdate = []) (_h3 : s.exrule = []) (_h4 : s.exdate = []) :
    setAll s limit fuel = .ok [] ∧ s.dt_start ∉ setOccurrences s fuel := by
  have hocc : setOccurrences s fuel = [] := by
    simp [setOccurrences, includeList, h1, h2, List.insertionSort, dedupSorted]
  have hcomp : setComplete s fuel = true := by
    simp [setComplete, h1]
  constructor
  · unfold setAll
    rw [hocc]
    rw [if_pos ⟨hcomp, by simp⟩]
  · rw [hocc]
    simp

/-- Witness for C8 at `RRuleSet::default()`. -/
theorem c8_empty_set_yields_nothing_witness :
    setAll RRuleSet.default 100 40 = .ok [] ∧
      RRuleSet.default.dt_start ∉ setOccurrences RRuleSet.default 40 :=
  c8_empty_set_yields_nothing RRuleSet.default 100 40 rfl rfl rfl rfl

/-- C2: for a datestring without the zulu marker and a given timezone, a gap
(`LocalResult.none`) makes `datestring_to_date` return
`InvalidDateTimeInLocalTimezone` and a fold (`LocalResult.ambiguous`) makes
it return `DateTimeInLocalTimezoneIsAmbiguous` — in neither case is a
candidate instant picked — and `parse_dtstart` forwards its datetime part to
`datestring_to_date`, so the same errors surface at rule build time. -/
theorem c2_gap_fold_rejected (res : Resolver) (knownTz : String → Bool)
    (s field : String) (tz : Option TzName) (p : ParsedDateString)
    (hp : parse_datestring s.toList = some p)
    (hz : p.zulu_timezone_set = false)
    (hv : validParsed p = true) :
    (res tz (parsedNaive p) = .none →
        datestring_to_date res s tz field = .error (.InvalidDateTimeInLocalTimezone s field)) ∧
      (∀ a b, res tz (parsedNaive p) = .ambiguous a b →
        datestring_to_date res s tz field =
          .error (.DateTimeInLocalTimezoneIsAmbiguous s field a b)) ∧
      (∀ (line : String) (tzCs dtCs : List Char),
        parse_start_datetime line.toList = some (some tzCs, dtCs) →
        knownTz (String.mk tzCs) = true →
        parse_dtstart res knownTz line =
          datestring_to_date res (String.mk dtCs) (some (String.mk tzCs)) "DTSTART") := by
  have hp2 : parse_datestring s.data = some p := hp
  refine ⟨?_, ?_, ?_⟩
  · intro h
    simp [datestring_to_date, hp2, hv, hz, h]
  · intro a b h
    simp [datestring_to_date, hp2, hv, hz, h]
  · intro line tzCs dtCs hline hk
    have hline2 : parse_start_datetime line.data = some (some tzCs, dtCs) := hline
    simp [parse_dtstart, hline2, parse_timezone, hk]

/-- Witness for C2: a resolver reporting a gap at the wall clock
2020-03-08T02:30:00 (a United States DST-gap time) in America/New_York. -/
theorem c2_gap_fold_rejected_witness :
    datestring_to_date (fun _ _ => LocalResult.none) "20200308T023000"
        (some "America/New_York") "DTSTART" =
      .error (.InvalidDateTimeInLocalTimezone "20200308T023000" "DTSTART") :=
  (c2_gap_fold_rejected (fun _ _ => LocalResult.none) (fun _ => true) "20200308T023000"
      "DTSTART" (some "America/New_York") ⟨2020, 3, 8, some ⟨2, 30, 0⟩, false⟩
      (by decide) rfl (by decide)).1 rfl

/-- C9: a valid datestring carrying the zulu suffix `Z` parses, for any
timezone argument, to the same absolute instant — the UTC interpretation of
the parsed wall-clock triple — the timezone argument only setting the
display zone of the result. -/
theorem c9_zulu_overrides_timezone (res1 res2 : Resolver) (s field : String)
    (tz1 tz2 : Option TzName) (d1 d2 : DateTime)
    (hz : zuluSuffix s = true)
    (h1 : datestring_to_date res1 s tz1 field = .ok d1)
    (h2 : datestring_to_date res2 s tz2 field = .ok d2) :
    d1.instant = d2.instant ∧
      (∃ p, parse_datestring s.toList = some p ∧ p.zulu_timezone_set = true ∧
        d1.instant = parsedNaive p) ∧
      d1.zone = tz1.getD "UTC" ∧ d2.zone = tz2.getD "UTC" := by
  have hzl : s.toList.getLast? = some 'Z' := by
    unfold zuluSuffix at hz
    exact eq_of_beq hz
  cases hps : parse_datestring s.toList with
  | none =>
    have hps2 : parse_datestring s.data = none := hps
    simp [datestring_to_date, hps2] at h1
  | some p =>
    have hps2 : parse_datestring s.data = some p := hps
    have hzu : p.zulu_timezone_set = true := parse_datestring_zulu _ p hps hzl
    by_cases hv : validParsed p = true
    · obtain ⟨i1, z1⟩ := d1
      obtain ⟨i2, z2⟩ := d2
      simp [datestring_to_date, hps2, hv, hzu] at h1 h2
      obtain ⟨hpi1, hpz1⟩ := h1
      obtain ⟨hpi2, hpz2⟩ := h2
      subst hpi1
      subst hpz1
      subst hpi2
      subst hpz2
      exact ⟨rfl, ⟨p, rfl, hzu, rfl⟩, rfl, rfl⟩
    · simp [datestring_to_date, hps2, hv] at h1

/-- Witness for C9 on `19970902T090000Z` with the UTC and US/Pacific display
zones. -/
theorem c9_zulu_overrides_timezone_witness :
    (873190800 : ℤ) = (873190800 : ℤ) ∧
      (∃ p, parse_datestring "19970902T090000Z".toList = some p ∧
        p.zulu_timezone_set = true ∧ (873190800 : ℤ) = parsedNaive p) ∧
      ("UTC" : TzName) = (Option.none : Option TzName).getD "UTC" ∧
      ("US/Pacific" : TzName) = (some ("US/Pacific" : TzName)).getD "UTC" := by
  have h := c9_zulu_overrides_timezone (fun _ _ => LocalResult.single 0)
    (fun _ _ => LocalResult.single 0) "19970902T090000Z" "DTSTART"
    Option.none (some "US/Pacific") ⟨873190800, "UTC"⟩ ⟨873190800, "US/Pacific"⟩
    (by decide) (by decide) (by decide)
  exact h

/-- C10: `parse_weekdays` succeeds exactly when every comma-separated token
parses as an `NWeekday`, returning one entry per token in input order; in
particular the empty string is rejected; and `str_to_weekday` accepts exactly
the seven two-letter weekday codes, case-insensitively. -/
theorem c10_parse_weekdays_characterisation (val : String) (ds : List NWeekday) :
    ((parse_weekdays val).isOk = true ↔
        ∀ tok ∈ splitOnChar ',' val.toList, (nweekday_from_str tok).isOk = true) ∧
      (parse_weekdays val = .ok ds →
        ds.length = (splitOnChar ',' val.toList).length ∧
          ∀ i (hi : i < ds.length) (hj : i < (splitOnChar ',' val.toList).length),
            nweekday_from_str ((splitOnChar ',' val.toList).get ⟨i, hj⟩) =
              .ok (ds.get ⟨i, hi⟩)) ∧
      (parse_weekdays "").isOk = false ∧
      (∀ (t : String) (w : Weekday), str_to_weekday t = .ok w ↔
        upperChars t.toList = weekdayCode w) :=
  ⟨parse_weekdays_loop_isOk _, parse_weekdays_loop_ok _ ds, by decide,
    fun t w => str_to_weekday_iff t w⟩

/-- Witness for C10 on the input `MO,WE`. -/
theorem c10_parse_weekdays_characterisation_witness :
    ([NWeekday.Every Weekday.Mon, NWeekday.Every Weekday.Wed] : List NWeekday).length =
      (splitOnChar ',' "MO,WE".toList).length :=
  ((c10_parse_weekdays_characterisation "MO,WE"
      [NWeekday.Every Weekday.Mon, NWeekday.Every Weekday.Wed]).2.1 (by decide)).1
